import Mathlib

/-!
Verification of the Paillier partial homomorphic cryptosystem implementation
(`cryptoscheme.go`, package `paillier`).

The Go source is shallowly embedded over `Nat`: Go `*big.Int` values appearing
in this package are always non-negative (primes, moduli, residues), so `Nat`
with explicit `%` is a faithful carrier.  Functions that abort via a Go
`panic(err)` carrying an `InverseError` are embedded as `Except InverseError`-
valued functions.  The per-call randomness (the blinding factor drawn by
`rand.Int` inside `Encrypt`, and the primes drawn by `rand.Prime` inside the
constructors) is passed explicitly, which is the standard shallow embedding of
an entropy source.
-/

namespace Paillier

/-- Modelled from the spec: the Modular Arithmetic Toolkit function
`square(x) = x·x` (the `square` helper is repository code not present under
`src/`; spec section 4.1 gives its definition). -/
def square (x : Nat) : Nat := x * x

/-- Modelled from the spec: `inc(x) = x+1` (toolkit helper missing from
`src/`, spec section 4.1). -/
def inc (x : Nat) : Nat := x + 1

/-- Modelled from the spec: `dec(x) = x−1` (toolkit helper missing from
`src/`, spec section 4.1). -/
def dec (x : Nat) : Nat := x - 1

/-- Modelled from the spec: `lcm(a,b) = a·b / gcd(a,b)` (toolkit helper
missing from `src/`, spec section 4.1). -/
def lcm (a b : Nat) : Nat := a * b / Nat.gcd a b

/-- Modelled from the spec: `modpow(base, exp, mod)`, standard modular
exponentiation; "exponent may be any non-negative integer, modulus must be
positive" (toolkit helper `pow` missing from `src/`, spec section 4.1). -/
def pow (base exp m : Nat) : Nat := base ^ exp % m

/-- The error raised when a modular inverse does not exist
(`type InverseError struct {}`, cryptoscheme.go lines 31-36). -/
structure InverseError where
  deriving DecidableEq

/-- Embeds `func (e InverseError) Error() string` (cryptoscheme.go lines 34-36). -/
def InverseError.Error (_ : InverseError) : String := "Mod inverse error!"

/-- Modelled from the spec: `modinv(a, mod)`, "modular multiplicative inverse
via extended Euclidean algorithm; fails with InverseError when
`gcd(a, mod) ≠ 1`" (toolkit helper `rev` missing from `src/`, spec section
4.1).  The extended Euclidean algorithm is `Nat.gcdA`; the Bézout coefficient
is reduced into `[0, mod)`. -/
def rev (a m : Nat) : Except InverseError Nat :=
  if Nat.gcd a m = 1 then Except.ok ((Nat.gcdA a m % (m : Int)).toNat) else Except.error ⟨⟩

/-- Modelled from the spec: the Paillier L function
`L(x, n) = (x − 1) / n`, integer division (toolkit helper `l` missing from
`src/`, spec section 4.1). -/
def l (x n : Nat) : Nat := (x - 1) / n

/-- Modelled from the spec: `modmul(a, b, mod) = (a·b) mod mod` (toolkit
helper `bigMul` missing from `src/`, spec section 4.1). -/
def bigMul (a b m : Nat) : Nat := a * b % m

/-- Embeds `const defaultKeySize int = 128` (cryptoscheme.go line 9). -/
def defaultKeySize : Nat := 128

/-- Embeds `type PublicKey struct` (cryptoscheme.go lines 11-15). -/
structure PublicKey where
  P_n : Nat
  P_nn : Nat
  P_g : Nat
  deriving DecidableEq

/-- Embeds `type PrivateKey struct` (cryptoscheme.go lines 17-21). -/
structure PrivateKey where
  PublicKey : PublicKey
  P_h : Nat
  P_u : Nat
  deriving DecidableEq

/-- Embeds `type paillier struct` (cryptoscheme.go lines 52-56).  The `randomReader`
field is an entropy handle with no arithmetic content; randomness consumed
from it is passed explicitly to the operations that draw from it. -/
structure paillier where
  P : Nat
  Q : Nat
  deriving DecidableEq

/-- Embeds `func (p *paillier) GenKeypair() *PrivateKey` (cryptoscheme.go lines
58-79), with the receiver's stored primes `p.P`, `p.Q` passed explicitly.
The Go `panic(err)` on a failed inverse is embedded as `Except.error`. -/
def GenKeypair (P Q : Nat) : Except InverseError PrivateKey :=
  let n := P * Q
  let nn := square n
  let g := inc n
  let h := lcm (dec P) (dec Q)
  match rev (l (pow g h nn) n) n with
  | Except.error e => Except.error e
  | Except.ok u => Except.ok ⟨⟨n, nn, g⟩, h, u⟩

/-- The `GenKeypair` method on a scheme instance: it reads only the primes
stored in the receiver. -/
def paillier.GenKeypair (pl : paillier) : Except InverseError PrivateKey :=
  Paillier.GenKeypair pl.P pl.Q

/-- Embeds `func (p *paillier) Encrypt` (cryptoscheme.go lines 81-90).  The blinding
factor `r` drawn by `rand.Int(p.randomReader, key.P_n)` from `[0, n)` is
passed explicitly. -/
def Encrypt (key : PublicKey) (m r : Nat) : Nat :=
  bigMul (pow key.P_g m key.P_nn) (pow r key.P_n key.P_nn) key.P_nn

/-- Embeds `func (p *paillier) Decrypt` (cryptoscheme.go lines 92-96). -/
def Decrypt (key : PrivateKey) (c : Nat) : Nat :=
  bigMul (l (pow c key.P_h key.PublicKey.P_nn) key.PublicKey.P_n) key.P_u key.PublicKey.P_n

/-- Embeds `func (p *paillier) Add` (cryptoscheme.go lines 98-100). -/
def Add (a b : Nat) (key : PublicKey) : Nat :=
  bigMul a b key.P_nn

/-- Embeds `func (p *paillier) Mul` (cryptoscheme.go lines 102-104).  The scalar `b`
is a plain integer; the embedded `pow` covers its documented non-negative
domain. -/
def Mul (a : Nat) (b : Nat) (key : PublicKey) : Nat :=
  pow a b key.P_nn

/-- Embeds `func (p *paillier) Sub` (cryptoscheme.go lines 106-113).  The Go
`panic(err)` on a failed inverse is embedded as `Except.error`. -/
def Sub (a b : Nat) (key : PublicKey) : Except InverseError Nat :=
  match rev b key.P_nn with
  | Except.error e => Except.error e
  | Except.ok revB => Except.ok (bigMul a revB key.P_nn)

/-- Embeds `func GetInstance(random io.Reader, keySize int)` (cryptoscheme.go lines
132-147).  The two draws `rand.Prime(random, keySize)` from the entropy
source are modelled by an oracle `primeGen` mapping (draw index, bit size) to
the prime produced; the constructor passes `keySize` to both draws. -/
def GetInstance (primeGen : Nat → Nat → Nat) (keySize : Nat) : paillier :=
  { P := primeGen 0 keySize, Q := primeGen 1 keySize }

/-- Embeds `func GetDefaultInstance()` (cryptoscheme.go lines 115-130): same two
draws against the system entropy source, each with `defaultKeySize` bits. -/
def GetDefaultInstance (primeGen : Nat → Nat → Nat) : paillier :=
  { P := primeGen 0 defaultKeySize, Q := primeGen 1 defaultKeySize }

/-! ### Arithmetic facts about the embedded toolkit -/

theorem lcm_eq_natLcm (a b : Nat) : lcm a b = Nat.lcm a b := rfl

theorem square_eq_pow_two (x : Nat) : square x = x ^ 2 := by unfold square; rw [pow_two]

/-- Binomial congruence: `(n+1)^m ≡ 1 + m·n (mod n²)`. -/
theorem one_add_pow (n : Nat) : ∀ m : Nat, (n + 1) ^ m ≡ 1 + m * n [MOD n ^ 2]
  | 0 => by simpa using Nat.ModEq.refl 1
  | m + 1 => by
    have ih := one_add_pow n m
    calc (n + 1) ^ (m + 1) = (n + 1) ^ m * (n + 1) := by ring
      _ ≡ (1 + m * n) * (n + 1) [MOD n ^ 2] := ih.mul_right _
      _ = (1 + (m + 1) * n) + m * n ^ 2 := by ring
      _ ≡ 1 + (m + 1) * n [MOD n ^ 2] := Nat.add_mul_mod_self_right _ _ _

/-- Reduction of `1 + K·n` modulo `n²` to canonical form. -/
theorem one_add_mul_mod {n : Nat} (K : Nat) (hn : 2 ≤ n) :
    (1 + K * n) % n ^ 2 = 1 + K % n * n := by
  have hK : K = n * (K / n) + K % n := (Nat.div_add_mod K n).symm
  have hlt : 1 + K % n * n < n ^ 2 := by
    have h1 : K % n + 1 ≤ n := Nat.mod_lt _ (by omega)
    calc 1 + K % n * n < n + K % n * n := by omega
      _ = (K % n + 1) * n := by ring
      _ ≤ n * n := Nat.mul_le_mul_right n h1
      _ = n ^ 2 := (pow_two n).symm
  calc (1 + K * n) % n ^ 2 = ((1 + K % n * n) + K / n * n ^ 2) % n ^ 2 := by
        congr 1
        conv_lhs => rw [hK]
        ring
      _ = (1 + K % n * n) % n ^ 2 := Nat.add_mul_mod_self_right _ _ _
      _ = 1 + K % n * n := Nat.mod_eq_of_lt hlt

/-- Correctness of the extended-Euclidean inverse: a successful `rev`
returns a modular inverse. -/
theorem rev_ok {a m u : Nat} (hm : 0 < m) (h : rev a m = Except.ok u) :
    a * u ≡ 1 [MOD m] := by
  unfold rev at h
  by_cases hg : Nat.gcd a m = 1
  · rw [if_pos hg] at h
    have hu : u = (Nat.gcdA a m % (m : Int)).toNat := (Except.ok.injEq _ _).mp h.symm
    have hmz : (m : Int) ≠ 0 := by exact_mod_cast hm.ne'
    have hnonneg : 0 ≤ Nat.gcdA a m % (m : Int) := Int.emod_nonneg _ hmz
    have huz : (u : Int) = Nat.gcdA a m % (m : Int) := by
      rw [hu, Int.toNat_of_nonneg hnonneg]
    have hbez : (1 : Int) = a * Nat.gcdA a m + m * Nat.gcdB a m := by
      have := Nat.gcd_eq_gcd_ab a m
      rw [hg] at this
      exact_mod_cast this
    rw [Nat.modEq_iff_dvd]
    have hdef : Nat.gcdA a m % (m : Int)
        = Nat.gcdA a m - m * (Nat.gcdA a m / m) := Int.emod_def _ _
    refine ⟨Nat.gcdB a m + a * (Nat.gcdA a m / m), ?_⟩
    push_cast
    rw [huz, hdef]
    linear_combination hbez
  · rw [if_neg hg] at h
    exact absurd h (by simp)

/-- The helper `rev` succeeds exactly on operands coprime to the modulus. -/
theorem rev_eq_ok_iff {a m : Nat} :
    (∃ u, rev a m = Except.ok u) ↔ Nat.gcd a m = 1 := by
  unfold rev
  by_cases hg : Nat.gcd a m = 1 <;> simp [hg]

/-- Coprimality to the modulus transfers along congruence. -/
theorem coprime_of_modEq {x y M : Nat} (h : y ≡ x [MOD M]) (hx : Nat.Coprime x M) :
    Nat.Coprime y M := by
  have h2 : y % M = x % M := h
  have hgcd : Nat.gcd M y = Nat.gcd M x := by
    rw [Nat.gcd_rec M y, Nat.gcd_rec M x, h2]
  unfold Nat.Coprime
  rw [Nat.gcd_comm, hgcd, Nat.gcd_comm]
  exact hx

/-- Modular inverses are unique up to congruence. -/
theorem inv_unique {M b x y : Nat} (hx : b * x ≡ 1 [MOD M]) (hy : b * y ≡ 1 [MOD M]) :
    x ≡ y [MOD M] := by
  calc x = x * 1 := (mul_one x).symm
    _ ≡ x * (b * y) [MOD M] := hy.symm.mul_left x
    _ = y * (b * x) := by ring
    _ ≡ y * 1 [MOD M] := hx.mul_left y
    _ = y := mul_one y

/-- Unfolding a successful key generation into its components. -/
theorem genKeypair_fields {P Q : Nat} {sk : PrivateKey}
    (h : GenKeypair P Q = Except.ok sk) :
    sk.PublicKey.P_n = P * Q ∧ sk.PublicKey.P_nn = square (P * Q) ∧
    sk.PublicKey.P_g = P * Q + 1 ∧ sk.P_h = lcm (dec P) (dec Q) ∧
    rev (l (pow (inc (P * Q)) (lcm (dec P) (dec Q)) (square (P * Q))) (P * Q)) (P * Q)
      = Except.ok sk.P_u := by
  simp only [GenKeypair] at h
  split at h
  · exact absurd h (by simp)
  · rename_i u hrev
    have hsk : sk = ⟨⟨P * Q, square (P * Q), inc (P * Q)⟩, lcm (dec P) (dec Q), u⟩ :=
      ((Except.ok.injEq _ _).mp h).symm
    subst hsk
    exact ⟨rfl, rfl, rfl, rfl, hrev⟩

/-- Euler's theorem modulo a prime square, pushed to any exponent that the
group order divides: if `p` is prime, `gcd(r, p) = 1` and `p·(p−1) ∣ M`, then
`r^M ≡ 1 (mod p²)`. -/
theorem pow_modEq_one_prime_sq {P r M : Nat} (hp : P.Prime) (hr : Nat.Coprime r P)
    (hdvd : P * (P - 1) ∣ M) : r ^ M ≡ 1 [MOD P ^ 2] := by
  obtain ⟨t, ht⟩ := hdvd
  have heuler : r ^ (P * (P - 1)) ≡ 1 [MOD P ^ 2] := by
    have h := Nat.ModEq.pow_totient (Nat.Coprime.pow_right 2 hr)
    rwa [Nat.totient_prime_pow hp (by norm_num), pow_one] at h
  calc r ^ M = (r ^ (P * (P - 1))) ^ t := by rw [ht, pow_mul]
    _ ≡ 1 ^ t [MOD P ^ 2] := heuler.pow t
    _ = 1 := one_pow t

/-- Core Paillier exponent identity: for distinct primes `p`, `q`,
`n = p·q`, `λ = lcm(p−1, q−1)`, and any `r` coprime to `n`,
`r^(n·λ) ≡ 1 (mod n²)`. -/
theorem pow_n_lcm_modEq_one {P Q r : Nat} (hp : P.Prime) (hq : Q.Prime)
    (hpq : P ≠ Q) (hr : Nat.Coprime r (P * Q)) :
    r ^ (P * Q * Nat.lcm (P - 1) (Q - 1)) ≡ 1 [MOD (P * Q) ^ 2] := by
  have hco : Nat.Coprime (P ^ 2) (Q ^ 2) :=
    Nat.Coprime.pow 2 2 ((Nat.coprime_primes hp hq).mpr hpq)
  have hrP : Nat.Coprime r P := Nat.Coprime.coprime_dvd_right (dvd_mul_right P Q) hr
  have hrQ : Nat.Coprime r Q := Nat.Coprime.coprime_dvd_right (dvd_mul_left Q P) hr
  have hdvdP : P * (P - 1) ∣ P * Q * Nat.lcm (P - 1) (Q - 1) := by
    obtain ⟨t, ht⟩ := Nat.dvd_lcm_left (P - 1) (Q - 1)
    exact ⟨Q * t, by rw [ht]; ring⟩
  have hdvdQ : Q * (Q - 1) ∣ P * Q * Nat.lcm (P - 1) (Q - 1) := by
    obtain ⟨t, ht⟩ := Nat.dvd_lcm_right (P - 1) (Q - 1)
    exact ⟨P * t, by rw [ht]; ring⟩
  have hP2 := pow_modEq_one_prime_sq hp hrP hdvdP
  have hQ2 := pow_modEq_one_prime_sq hq hrQ hdvdQ
  have := (Nat.modEq_and_modEq_iff_modEq_mul hco).mp ⟨hP2, hQ2⟩
  rwa [← mul_pow] at this

/-- The stored private exponent `h` together with `u` inverts modulo `n`:
`h·u ≡ 1 (mod n)` for any key pair that `GenKeypair` actually returns. -/
theorem h_mul_u_modEq {P Q : Nat} {sk : PrivateKey} (hP : 2 ≤ P) (hQ : 2 ≤ Q)
    (hgen : GenKeypair P Q = Except.ok sk) :
    sk.P_h * sk.P_u ≡ 1 [MOD P * Q] := by
  obtain ⟨-, -, -, hh, hrev⟩ := genKeypair_fields hgen
  have hn : 2 ≤ P * Q := le_trans hP (Nat.le_mul_of_pos_right P (by omega))
  have hn0 : 0 < P * Q := by omega
  set n := P * Q with hndef
  set L := lcm (dec P) (dec Q) with hLdef
  have hpowval : pow (inc n) L (square n) = 1 + L % n * n := by
    have hcong : (n + 1) ^ L % n ^ 2 = (1 + L * n) % n ^ 2 := one_add_pow n L
    unfold pow inc square
    rw [← pow_two n, hcong, one_add_mul_mod L hn]
  have hlval : l (pow (inc n) L (square n)) n = L % n := by
    rw [hpowval]
    unfold l
    rw [Nat.add_sub_cancel_left, Nat.mul_div_cancel _ hn0]
  rw [hlval] at hrev
  have hok := rev_ok hn0 hrev
  have : L * sk.P_u ≡ 1 [MOD n] :=
    (((Nat.mod_modEq L n).symm).mul_right sk.P_u).trans hok
  rwa [hh]

/-- The decryption formula evaluated on any `c` whose `h`-th power is
congruent to `1 + K·n` modulo `n²`. -/
theorem decrypt_formula {P Q : Nat} {sk : PrivateKey} (hP : 2 ≤ P) (hQ : 2 ≤ Q)
    (hgen : GenKeypair P Q = Except.ok sk) {c K : Nat}
    (hc : c ^ sk.P_h ≡ 1 + K * (P * Q) [MOD (P * Q) ^ 2]) :
    Decrypt sk c = K * sk.P_u % (P * Q) := by
  obtain ⟨hn1, hn2, -, -, -⟩ := genKeypair_fields hgen
  have hn : 2 ≤ P * Q := le_trans hP (Nat.le_mul_of_pos_right P (by omega))
  have hn0 : 0 < P * Q := by omega
  have hpowval : pow c sk.P_h (square (P * Q)) = 1 + K % (P * Q) * (P * Q) := by
    have hcong : c ^ sk.P_h % (P * Q) ^ 2 = (1 + K * (P * Q)) % (P * Q) ^ 2 := hc
    unfold pow square
    rw [← pow_two (P * Q), hcong, one_add_mul_mod K hn]
  unfold Decrypt bigMul
  rw [hn1, hn2, hpowval]
  unfold l
  rw [Nat.add_sub_cancel_left, Nat.mul_div_cancel _ hn0, Nat.mod_mul_mod]

/-- Raising a Paillier-shaped ciphertext to the private exponent:
if `c ≡ (n+1)^M · ρ^n (mod n²)` with `ρ` coprime to `n`, then
`c^h ≡ 1 + M·h·n (mod n²)`. -/
theorem cipher_pow {P Q : Nat} {sk : PrivateKey} (hp : P.Prime) (hq : Q.Prime)
    (hpq : P ≠ Q) (hgen : GenKeypair P Q = Except.ok sk) {c M ρ : Nat}
    (hρ : Nat.Coprime ρ (P * Q))
    (hc : c ≡ (P * Q + 1) ^ M * ρ ^ (P * Q) [MOD (P * Q) ^ 2]) :
    c ^ sk.P_h ≡ 1 + M * sk.P_h * (P * Q) [MOD (P * Q) ^ 2] := by
  obtain ⟨-, -, -, hh, -⟩ := genKeypair_fields hgen
  have hL : sk.P_h = Nat.lcm (P - 1) (Q - 1) := hh
  calc c ^ sk.P_h
      ≡ ((P * Q + 1) ^ M * ρ ^ (P * Q)) ^ sk.P_h [MOD (P * Q) ^ 2] := hc.pow sk.P_h
    _ = (P * Q + 1) ^ (M * sk.P_h) * ρ ^ (P * Q * sk.P_h) := by
        rw [mul_pow, ← pow_mul, ← pow_mul]
    _ ≡ (1 + M * sk.P_h * (P * Q)) * 1 [MOD (P * Q) ^ 2] := by
        refine Nat.ModEq.mul (one_add_pow (P * Q) (M * sk.P_h)) ?_
        rw [hL]
        exact pow_n_lcm_modEq_one hp hq hpq hρ
    _ = 1 + M * sk.P_h * (P * Q) := mul_one _

/-- Decrypting a Paillier-shaped ciphertext recovers the exponent of `g`
modulo `n`. -/
theorem decrypt_cipher {P Q : Nat} {sk : PrivateKey} (hp : P.Prime) (hq : Q.Prime)
    (hpq : P ≠ Q) (hgen : GenKeypair P Q = Except.ok sk) {c M ρ : Nat}
    (hρ : Nat.Coprime ρ (P * Q))
    (hc : c ≡ (P * Q + 1) ^ M * ρ ^ (P * Q) [MOD (P * Q) ^ 2]) :
    Decrypt sk c = M % (P * Q) := by
  have hP : 2 ≤ P := hp.two_le
  have hQ : 2 ≤ Q := hq.two_le
  have hstep := decrypt_formula hP hQ hgen (cipher_pow hp hq hpq hgen hρ hc)
  rw [hstep]
  have : M * sk.P_h * sk.P_u ≡ M * 1 [MOD P * Q] := by
    have h1 := (h_mul_u_modEq hP hQ hgen).mul_left M
    calc M * sk.P_h * sk.P_u = M * (sk.P_h * sk.P_u) := by ring
      _ ≡ M * 1 [MOD P * Q] := h1
  have h2 : M * sk.P_h * sk.P_u % (P * Q) = M * 1 % (P * Q) := this
  rw [h2, mul_one]

/-- An encryption is congruent to `(n+1)^m · r^n` modulo `n²`. -/
theorem encrypt_modEq {P Q : Nat} {sk : PrivateKey}
    (hgen : GenKeypair P Q = Except.ok sk) (m r : Nat) :
    Encrypt sk.PublicKey m r ≡ (P * Q + 1) ^ m * r ^ (P * Q) [MOD (P * Q) ^ 2] := by
  obtain ⟨hn1, hn2, hg, -, -⟩ := genKeypair_fields hgen
  unfold Encrypt bigMul pow
  rw [hn1, hn2, hg]
  unfold square
  rw [← pow_two (P * Q)]
  exact (Nat.mod_modEq _ _).trans
    (Nat.ModEq.mul (Nat.mod_modEq _ _) (Nat.mod_modEq _ _))

/-! ### The claims -/

/-- C1: round-trip — for every key pair produced by `GenKeypair` from two
distinct odd primes `p`, `q`, every plaintext `m` in `[0, n)`, and every
blinding factor `r` coprime to `n` in `[0, n)` drawn during encryption,
`Decrypt(sk, Encrypt(pk, m)) = m`. -/
theorem C1_round_trip (P Q m r : Nat) (sk : PrivateKey)
    (hp : Nat.Prime P) (hq : Nat.Prime Q) (hpq : P ≠ Q) (hoP : Odd P) (hoQ : Odd Q)
    (hgen : GenKeypair P Q = Except.ok sk)
    (hm : m < P * Q) (hr : Nat.Coprime r (P * Q)) (hrlt : r < P * Q) :
    Decrypt sk (Encrypt sk.PublicKey m r) = m := by
  rw [decrypt_cipher hp hq hpq hgen hr (encrypt_modEq hgen m r)]
  exact Nat.mod_eq_of_lt hm

/-- C2: additive homomorphism — `Add(a, b, pk)` returns `(a·b) mod n²`, and
decrypting the sum of two encryptions yields `(m1 + m2) mod n`. -/
theorem C2_add_homomorphism (P Q m1 m2 r1 r2 : Nat) (sk : PrivateKey)
    (hp : Nat.Prime P) (hq : Nat.Prime Q) (hpq : P ≠ Q) (hoP : Odd P) (hoQ : Odd Q)
    (hgen : GenKeypair P Q = Except.ok sk)
    (hm1 : m1 < P * Q) (hm2 : m2 < P * Q)
    (hr1 : Nat.Coprime r1 (P * Q)) (hr2 : Nat.Coprime r2 (P * Q)) :
    (∀ a b : Nat, Add a b sk.PublicKey = a * b % sk.PublicKey.P_nn) ∧
    Decrypt sk (Add (Encrypt sk.PublicKey m1 r1) (Encrypt sk.PublicKey m2 r2) sk.PublicKey)
      = (m1 + m2) % (P * Q) := by
  refine ⟨fun a b => rfl, ?_⟩
  obtain ⟨-, hn2, -, -, -⟩ := genKeypair_fields hgen
  have hcsum : Add (Encrypt sk.PublicKey m1 r1) (Encrypt sk.PublicKey m2 r2) sk.PublicKey
      ≡ (P * Q + 1) ^ (m1 + m2) * (r1 * r2) ^ (P * Q) [MOD (P * Q) ^ 2] := by
    unfold Add bigMul
    rw [hn2]
    unfold square
    rw [← pow_two (P * Q)]
    calc Encrypt sk.PublicKey m1 r1 * Encrypt sk.PublicKey m2 r2 % (P * Q) ^ 2
        ≡ Encrypt sk.PublicKey m1 r1 * Encrypt sk.PublicKey m2 r2 [MOD (P * Q) ^ 2] :=
          Nat.mod_modEq _ _
      _ ≡ ((P * Q + 1) ^ m1 * r1 ^ (P * Q)) * ((P * Q + 1) ^ m2 * r2 ^ (P * Q))
          [MOD (P * Q) ^ 2] :=
          Nat.ModEq.mul (encrypt_modEq hgen m1 r1) (encrypt_modEq hgen m2 r2)
      _ = (P * Q + 1) ^ (m1 + m2) * (r1 * r2) ^ (P * Q) := by
          rw [pow_add, mul_pow]; ring
  exact decrypt_cipher hp hq hpq hgen (Nat.Coprime.mul hr1 hr2) hcsum

/-- C4: scalar homomorphism — `Mul(a, k, pk)` returns `a^k mod n²` for a
plain integer scalar `k`, and decrypting `Mul(Encrypt(pk, m), k, pk)` yields
`(m·k) mod n`, for every plaintext `m` and every scalar `k` in the
non-negative domain of the modelled `modpow`. -/
theorem C4_scalar_homomorphism (P Q m k r : Nat) (sk : PrivateKey)
    (hp : Nat.Prime P) (hq : Nat.Prime Q) (hpq : P ≠ Q) (hoP : Odd P) (hoQ : Odd Q)
    (hgen : GenKeypair P Q = Except.ok sk)
    (hr : Nat.Coprime r (P * Q)) :
    (∀ a c : Nat, Mul a c sk.PublicKey = a ^ c % sk.PublicKey.P_nn) ∧
    Decrypt sk (Mul (Encrypt sk.PublicKey m r) k sk.PublicKey) = m * k % (P * Q) := by
  refine ⟨fun a c => rfl, ?_⟩
  obtain ⟨-, hn2, -, -, -⟩ := genKeypair_fields hgen
  have hcmul : Mul (Encrypt sk.PublicKey m r) k sk.PublicKey
      ≡ (P * Q + 1) ^ (m * k) * (r ^ k) ^ (P * Q) [MOD (P * Q) ^ 2] := by
    unfold Mul pow
    rw [hn2]
    unfold square
    rw [← pow_two (P * Q)]
    calc Encrypt sk.PublicKey m r ^ k % (P * Q) ^ 2
        ≡ Encrypt sk.PublicKey m r ^ k [MOD (P * Q) ^ 2] := Nat.mod_modEq _ _
      _ ≡ ((P * Q + 1) ^ m * r ^ (P * Q)) ^ k [MOD (P * Q) ^ 2] :=
          (encrypt_modEq hgen m r).pow k
      _ = (P * Q + 1) ^ (m * k) * (r ^ k) ^ (P * Q) := by
          rw [mul_pow, ← pow_mul, ← pow_mul, ← pow_mul, mul_comm (P * Q) k]
  exact decrypt_cipher hp hq hpq hgen (Nat.Coprime.pow_left k hr) hcmul

/-- The generator base `n+1` is coprime to `n`. -/
theorem coprime_succ_n (n : Nat) : Nat.Coprime (n + 1) n := by
  rw [add_comm]
  exact Nat.coprime_add_self_left.mpr (Nat.coprime_one_left n)

/-- A valid encryption is invertible modulo `n²`. -/
theorem encrypt_coprime {P Q : Nat} {sk : PrivateKey}
    (hgen : GenKeypair P Q = Except.ok sk) {m r : Nat}
    (hr : Nat.Coprime r (P * Q)) :
    Nat.Coprime (Encrypt sk.PublicKey m r) ((P * Q) ^ 2) := by
  have hval : Nat.Coprime ((P * Q + 1) ^ m * r ^ (P * Q)) (P * Q) :=
    Nat.Coprime.mul (Nat.Coprime.pow_left m (coprime_succ_n (P * Q)))
      (Nat.Coprime.pow_left (P * Q) hr)
  exact coprime_of_modEq (encrypt_modEq hgen m r) (Nat.Coprime.pow_right 2 hval)

/-- C3: homomorphic subtraction — `Sub(a, b, pk)` computes
`Add(a, modinv(b, n²), pk)`, and for valid key pairs, plaintexts
`m1, m2` in `[0, n)` and valid blinding factors, subtraction of encryptions
decrypts to `(m1 − m2) mod n`, wrapping modulo `n` when `m1 < m2`. -/
theorem C3_sub_homomorphism (P Q m1 m2 r1 r2 : Nat) (sk : PrivateKey)
    (hp : Nat.Prime P) (hq : Nat.Prime Q) (hpq : P ≠ Q) (hoP : Odd P) (hoQ : Odd Q)
    (hgen : GenKeypair P Q = Except.ok sk)
    (hm1 : m1 < P * Q) (hm2 : m2 < P * Q)
    (hr1 : Nat.Coprime r1 (P * Q)) (hr2 : Nat.Coprime r2 (P * Q)) :
    (∀ a b rb : Nat, rev b sk.PublicKey.P_nn = Except.ok rb →
      Sub a b sk.PublicKey = Except.ok (Add a rb sk.PublicKey)) ∧
    ∃ c, Sub (Encrypt sk.PublicKey m1 r1) (Encrypt sk.PublicKey m2 r2) sk.PublicKey
        = Except.ok c ∧
      Decrypt sk c = (P * Q + m1 - m2) % (P * Q) := by
  constructor
  · intro a b rb hrb
    unfold Sub
    rw [hrb]
    rfl
  have hP2 := hp.two_le
  have hQ2 := hq.two_le
  have hn0 : 0 < P * Q := Nat.mul_pos (by omega) (by omega)
  have hnn0 : 0 < (P * Q) ^ 2 := pow_pos hn0 2
  obtain ⟨-, hn2, -, -, -⟩ := genKeypair_fields hgen
  rw [square_eq_pow_two] at hn2
  -- the inverse of the subtrahend exists
  have hbco : Nat.Coprime (Encrypt sk.PublicKey m2 r2) ((P * Q) ^ 2) :=
    encrypt_coprime hgen hr2
  obtain ⟨bi, hbi⟩ := rev_eq_ok_iff.mpr hbco
  have hbinv : Encrypt sk.PublicKey m2 r2 * bi ≡ 1 [MOD (P * Q) ^ 2] :=
    rev_ok hnn0 hbi
  -- the inverse of the blinding factor exists
  obtain ⟨ri, hri⟩ := rev_eq_ok_iff.mpr (Nat.Coprime.pow_right 2 hr2)
  have hrinv : r2 * ri ≡ 1 [MOD (P * Q) ^ 2] := rev_ok hnn0 hri
  have hrico : Nat.Coprime ri (P * Q) := by
    have h1 : r2 * ri ≡ 1 [MOD P * Q] :=
      Nat.ModEq.of_dvd (dvd_pow_self (P * Q) two_ne_zero) hrinv
    exact Nat.Coprime.coprime_dvd_left (dvd_mul_left ri r2)
      (coprime_of_modEq h1 (Nat.coprime_one_left (P * Q)))
  -- the explicit inverse candidate `(n+1)^(n−m2) · ri^n`
  have hcand : Encrypt sk.PublicKey m2 r2 * ((P * Q + 1) ^ (P * Q - m2) * ri ^ (P * Q))
      ≡ 1 [MOD (P * Q) ^ 2] := by
    calc Encrypt sk.PublicKey m2 r2 * ((P * Q + 1) ^ (P * Q - m2) * ri ^ (P * Q))
        ≡ ((P * Q + 1) ^ m2 * r2 ^ (P * Q)) * ((P * Q + 1) ^ (P * Q - m2) * ri ^ (P * Q))
          [MOD (P * Q) ^ 2] := (encrypt_modEq hgen m2 r2).mul_right _
      _ = (P * Q + 1) ^ (m2 + (P * Q - m2)) * (r2 * ri) ^ (P * Q) := by
          rw [pow_add, mul_pow]; ring
      _ = (P * Q + 1) ^ (P * Q) * (r2 * ri) ^ (P * Q) := by
          congr 2
          omega
      _ ≡ (1 + (P * Q) * (P * Q)) * 1 ^ (P * Q) [MOD (P * Q) ^ 2] :=
          Nat.ModEq.mul (one_add_pow (P * Q) (P * Q)) (hrinv.pow (P * Q))
      _ = 1 + 1 * (P * Q) ^ 2 := by ring
      _ ≡ 1 [MOD (P * Q) ^ 2] := Nat.add_mul_mod_self_right _ _ _
  have hbi_cand : bi ≡ (P * Q + 1) ^ (P * Q - m2) * ri ^ (P * Q) [MOD (P * Q) ^ 2] :=
    inv_unique hbinv hcand
  -- the subtraction succeeds and its result is Paillier-shaped
  refine ⟨bigMul (Encrypt sk.PublicKey m1 r1) bi ((P * Q) ^ 2), ?_, ?_⟩
  · unfold Sub
    rw [hn2, hbi]
  · have hshape : bigMul (Encrypt sk.PublicKey m1 r1) bi ((P * Q) ^ 2)
        ≡ (P * Q + 1) ^ (m1 + (P * Q - m2)) * (r1 * ri) ^ (P * Q) [MOD (P * Q) ^ 2] := by
      calc bigMul (Encrypt sk.PublicKey m1 r1) bi ((P * Q) ^ 2)
          ≡ Encrypt sk.PublicKey m1 r1 * bi [MOD (P * Q) ^ 2] := Nat.mod_modEq _ _
        _ ≡ ((P * Q + 1) ^ m1 * r1 ^ (P * Q))
            * ((P * Q + 1) ^ (P * Q - m2) * ri ^ (P * Q)) [MOD (P * Q) ^ 2] :=
            Nat.ModEq.mul (encrypt_modEq hgen m1 r1) hbi_cand
        _ = (P * Q + 1) ^ (m1 + (P * Q - m2)) * (r1 * ri) ^ (P * Q) := by
            rw [pow_add, mul_pow]; ring
    rw [decrypt_cipher hp hq hpq hgen (Nat.Coprime.mul hr1 hrico) hshape]
    congr 1
    omega

/-- C5: inverse failure — `Sub(a, b, pk)` fails with `InverseError` exactly
when `b` is not invertible modulo `n²` (shares a nontrivial factor with
`n²`); when `b` is coprime to `n²`, `Sub` succeeds and returns a
ciphertext. -/
theorem C5_inverse_failure (a b : Nat) (key : PublicKey) :
    (Sub a b key = Except.error ⟨⟩ ↔ Nat.gcd b key.P_nn ≠ 1) ∧
    (Nat.gcd b key.P_nn = 1 → ∃ c, Sub a b key = Except.ok c) := by
  by_cases hg : Nat.gcd b key.P_nn = 1 <;> simp [Sub, rev, hg]

/-- C6: key generation algorithm — given primes `p` and `q`, `GenKeypair`
returns a key whose public part has `n = p·q`, `n_squared = n²`, `g = n+1`,
and whose private components are `h = lcm(p−1, q−1)` and
`u = modinv(L(modpow(g, h, n²), n), n)`; if the modular inverse fails, key
generation aborts without returning a key. -/
theorem C6_genKeypair_algorithm (P Q : Nat) :
    (∀ sk, GenKeypair P Q = Except.ok sk →
      sk.PublicKey.P_n = P * Q ∧ sk.PublicKey.P_nn = (P * Q) * (P * Q) ∧
      sk.PublicKey.P_g = P * Q + 1 ∧
      sk.P_h = Nat.lcm (P - 1) (Q - 1) ∧
      rev (l (pow (P * Q + 1) (Nat.lcm (P - 1) (Q - 1)) ((P * Q) * (P * Q))) (P * Q)) (P * Q)
        = Except.ok sk.P_u) ∧
    (∀ e, rev (l (pow (P * Q + 1) (Nat.lcm (P - 1) (Q - 1)) ((P * Q) * (P * Q))) (P * Q)) (P * Q)
        = Except.error e →
      GenKeypair P Q = Except.error e) := by
  constructor
  · intro sk hgen
    exact genKeypair_fields hgen
  · intro e herr
    have herr2 : rev (l (pow (inc (P * Q)) (lcm (dec P) (dec Q)) (square (P * Q))) (P * Q)) (P * Q)
        = Except.error e := herr
    simp only [GenKeypair]
    split
    · rename_i e2 hcase
      rw [hcase] at herr2
    · rename_i u hcase
      rw [hcase] at herr2
      exact absurd herr2 (by simp)

/-! ### Concrete evaluation at p = 3, q = 5 -/

theorem xgcd_4_15 : Nat.xgcd 4 15 = (4, -1) := by
  rw [Nat.xgcd]
  rw [Nat.xgcdAux_rec (by norm_num)]
  norm_num
  rw [Nat.xgcdAux_rec (by norm_num)]
  norm_num
  rw [Nat.xgcdAux_rec (by norm_num)]
  norm_num

theorem rev_4_15 : rev 4 15 = Except.ok 4 := by
  unfold rev
  rw [if_pos (by norm_num)]
  have h : Nat.gcdA 4 15 = 4 := by
    unfold Nat.gcdA
    rw [xgcd_4_15]
  rw [h]
  rfl

theorem genKeypair_3_5 : GenKeypair 3 5 = Except.ok ⟨⟨15, 225, 16⟩, 4, 4⟩ := by
  have h1 : l (pow (inc (3 * 5)) (lcm (dec 3) (dec 5)) (square (3 * 5))) (3 * 5) = 4 := by
    decide
  have hrev : rev (l (pow (inc (3 * 5)) (lcm (dec 3) (dec 5)) (square (3 * 5))) (3 * 5)) (3 * 5)
      = Except.ok 4 := by
    rw [h1]
    exact rev_4_15
  simp only [GenKeypair]
  rw [hrev]
  rfl

/-- C7: concrete vector — with p = 3 and q = 5, key generation produces
n = 15, n² = 225, g = 16, h = 4, u = 4; encrypting m = 2 with blinding
factor r = 7 yields ciphertext 58, which decrypts to 2; encrypting m = 3
with r = 4 yields 154, which decrypts to 3; Add(58, 154) yields 157, which
decrypts to 5 (= 2+3 mod 15). -/
theorem C7_concrete_vector :
    GenKeypair 3 5 = Except.ok ⟨⟨15, 225, 16⟩, 4, 4⟩ ∧
    Encrypt ⟨15, 225, 16⟩ 2 7 = 58 ∧ Decrypt ⟨⟨15, 225, 16⟩, 4, 4⟩ 58 = 2 ∧
    Encrypt ⟨15, 225, 16⟩ 3 4 = 154 ∧ Decrypt ⟨⟨15, 225, 16⟩, 4, 4⟩ 154 = 3 ∧
    Add 58 154 ⟨15, 225, 16⟩ = 157 ∧ Decrypt ⟨⟨15, 225, 16⟩, 4, 4⟩ 157 = 5 :=
  ⟨genKeypair_3_5, by decide, by decide, by decide, by decide, by decide, by decide⟩

/-- C8: default construction — the default scheme instance uses the fixed
default bit length 128, and in both constructors the configured bit length
is the bit-size argument of each of the two prime draws (so each of `p` and
`q` has that bit length), not a bit length for `n`. -/
theorem C8_default_construction :
    defaultKeySize = 128 ∧
    (∀ primeGen, GetDefaultInstance primeGen
        = { P := primeGen 0 defaultKeySize, Q := primeGen 1 defaultKeySize }) ∧
    (∀ primeGen keySize, GetInstance primeGen keySize
        = { P := primeGen 0 keySize, Q := primeGen 1 keySize }) :=
  ⟨rfl, fun _ => rfl, fun _ _ => rfl⟩

/-- C9: one key pair per instance — the primes are stored in the instance at
construction and the `GenKeypair` method is a function of those stored primes
only, so any two successful calls on the same instance return key pairs with
identical n, n², g, h and u. -/
theorem C9_one_keypair_per_instance (inst : paillier) (sk1 sk2 : PrivateKey)
    (h1 : inst.GenKeypair = Except.ok sk1) (h2 : inst.GenKeypair = Except.ok sk2) :
    sk1 = sk2 ∧
    sk1.PublicKey.P_n = sk2.PublicKey.P_n ∧ sk1.PublicKey.P_nn = sk2.PublicKey.P_nn ∧
    sk1.PublicKey.P_g = sk2.PublicKey.P_g ∧ sk1.P_h = sk2.P_h ∧ sk1.P_u = sk2.P_u := by
  have h : sk1 = sk2 := (Except.ok.injEq _ _).mp (h1.symm.trans h2)
  subst h
  exact ⟨rfl, rfl, rfl, rfl, rfl, rfl⟩

/-- C10: unchecked blinding factor — `Encrypt` computes the ciphertext for
every drawn `r` in `[0, n)` with no coprimality or nonzero check; for the
possible draw r = 0 the ciphertext is 0 regardless of the plaintext, and
the round-trip guarantee fails for some plaintext in range. -/
theorem C10_zero_blinding (P Q : Nat) (sk : PrivateKey)
    (hp : Nat.Prime P) (hq : Nat.Prime Q)
    (hgen : GenKeypair P Q = Except.ok sk) :
    (∀ m, Encrypt sk.PublicKey m 0 = 0) ∧
    (∃ m, m < P * Q ∧ Decrypt sk (Encrypt sk.PublicKey m 0) ≠ m) := by
  obtain ⟨hn1, hn2, -, -, -⟩ := genKeypair_fields hgen
  have hP2 := hp.two_le
  have hQ2 := hq.two_le
  have hn4 : 4 ≤ P * Q := le_trans (by norm_num) (Nat.mul_le_mul hP2 hQ2)
  have hzero : ∀ m, Encrypt sk.PublicKey m 0 = 0 := by
    intro m
    unfold Encrypt bigMul pow
    rw [hn1, hn2]
    rw [zero_pow (show P * Q ≠ 0 by omega)]
    simp
  refine ⟨hzero, ?_⟩
  by_cases h1 : Decrypt sk 0 = 1
  · refine ⟨2, by omega, ?_⟩
    rw [hzero 2, h1]
    omega
  · exact ⟨1, by omega, by rw [hzero 1]; exact h1⟩

/-! ### Witnesses: the claims instantiated at the concrete key pair -/

theorem C1_witness :
    Decrypt ⟨⟨15, 225, 16⟩, 4, 4⟩ (Encrypt ⟨15, 225, 16⟩ 2 7) = 2 :=
  C1_round_trip 3 5 2 7 ⟨⟨15, 225, 16⟩, 4, 4⟩ (by norm_num) (by norm_num)
    (by norm_num) (by decide) (by decide) genKeypair_3_5 (by norm_num)
    (by decide) (by norm_num)

theorem C2_witness :
    Decrypt ⟨⟨15, 225, 16⟩, 4, 4⟩
      (Add (Encrypt ⟨15, 225, 16⟩ 2 7) (Encrypt ⟨15, 225, 16⟩ 3 4) ⟨15, 225, 16⟩) = 5 :=
  (C2_add_homomorphism 3 5 2 3 7 4 ⟨⟨15, 225, 16⟩, 4, 4⟩ (by norm_num) (by norm_num)
    (by norm_num) (by decide) (by decide) genKeypair_3_5 (by norm_num) (by norm_num)
    (by decide) (by decide)).2

theorem C3_witness :
    ∃ c, Sub (Encrypt ⟨15, 225, 16⟩ 2 7) (Encrypt ⟨15, 225, 16⟩ 3 4) ⟨15, 225, 16⟩
        = Except.ok c ∧
      Decrypt ⟨⟨15, 225, 16⟩, 4, 4⟩ c = 14 :=
  (C3_sub_homomorphism 3 5 2 3 7 4 ⟨⟨15, 225, 16⟩, 4, 4⟩ (by norm_num) (by norm_num)
    (by norm_num) (by decide) (by decide) genKeypair_3_5 (by norm_num) (by norm_num)
    (by decide) (by decide)).2

theorem C4_witness :
    Decrypt ⟨⟨15, 225, 16⟩, 4, 4⟩ (Mul (Encrypt ⟨15, 225, 16⟩ 2 7) 3 ⟨15, 225, 16⟩) = 6 :=
  (C4_scalar_homomorphism 3 5 2 3 7 ⟨⟨15, 225, 16⟩, 4, 4⟩ (by norm_num) (by norm_num)
    (by norm_num) (by decide) (by decide) genKeypair_3_5 (by decide)).2

theorem C5_witness : ∃ c, Sub 58 7 ⟨15, 225, 16⟩ = Except.ok c :=
  (C5_inverse_failure 58 7 ⟨15, 225, 16⟩).2 (by norm_num)

theorem C6_witness : (⟨⟨15, 225, 16⟩, 4, 4⟩ : PrivateKey).PublicKey.P_n = 3 * 5 :=
  ((C6_genKeypair_algorithm 3 5).1 ⟨⟨15, 225, 16⟩, 4, 4⟩ genKeypair_3_5).1

theorem C9_witness :
    (⟨⟨15, 225, 16⟩, 4, 4⟩ : PrivateKey) = ⟨⟨15, 225, 16⟩, 4, 4⟩ :=
  (C9_one_keypair_per_instance ⟨3, 5⟩ ⟨⟨15, 225, 16⟩, 4, 4⟩ ⟨⟨15, 225, 16⟩, 4, 4⟩
    genKeypair_3_5 genKeypair_3_5).1

theorem C10_witness :
    (∀ m, Encrypt ⟨15, 225, 16⟩ m 0 = 0) ∧
    (∃ m, m < 15 ∧ Decrypt ⟨⟨15, 225, 16⟩, 4, 4⟩ (Encrypt ⟨15, 225, 16⟩ m 0) ≠ m) :=
  C10_zero_blinding 3 5 ⟨⟨15, 225, 16⟩, 4, 4⟩ (by norm_num) (by norm_num) genKeypair_3_5

end Paillier
